import Mathlib

/-!
Verification of `montarRanking.py` (EMBRAPA exam-results ranking script).

Python strings are modelled as `List Char` (`Str`).  Python `float` values are
modelled exactly: every float occurring in this program is produced by
`float()` applied to a plain decimal numeral, so we represent the value as a
decimal mantissa/exponent pair (`Dec`) with value-level equality and order
defined by cross multiplication; binary rounding, exponent notation, `inf`
and `nan` are outside the inputs this program's claims exercise and are not
modelled.  Character classes (`\w`, `\s`, `\d`, `str.lower`, `str.strip`)
are modelled on their ASCII behaviour, which covers every string the claims
mention.
-/

abbrev Str := List Char

/-- Model of Python whitespace (the `\s` class and the characters removed by
`str.strip()`), restricted to the ASCII whitespace characters. -/
def isPySpace (c : Char) : Bool :=
  c = ' ' || c = '\t' || c = '\n' || c = '\r' || c = Char.ofNat 11 || c = Char.ofNat 12

/-- Model of Python `str.strip()`: remove leading and trailing whitespace. -/
def pyStrip (s : Str) : Str :=
  ((s.dropWhile isPySpace).reverse.dropWhile isPySpace).reverse

/-- Model of Python `str.split(sep)` for a one-character separator
(used for `content.split('/')` and `chunk.split(',')`). -/
def splitOnChar (sep : Char) : Str → List Str
  | [] => [[]]
  | c :: t =>
    if c = sep then [] :: splitOnChar sep t
    else
      match splitOnChar sep t with
      | [] => [[c]]
      | h :: r => (c :: h) :: r

/-- Check whether `pre` is an initial segment of `s`. -/
def startsWith (pre s : Str) : Bool :=
  decide (s.take pre.length = pre)

/-- Fuel-indexed worker for `splitOnSub`; the fuel is the length of the
string, which suffices because every step consumes at least one character. -/
def splitOnSubAux (sep : Str) : Nat → Str → List Str
  | 0, s => [s]
  | _ + 1, [] => [[]]
  | fuel + 1, c :: t =>
    if startsWith sep (c :: t) then
      [] :: splitOnSubAux sep fuel ((c :: t).drop sep.length)
    else
      match splitOnSubAux sep fuel t with
      | [] => [[c]]
      | h :: r => (c :: h) :: r

/-- Model of Python `str.split(sep)` for a non-empty string separator
(used for `chunk.split('SUBÁREA:')`). -/
def splitOnSub (sep s : Str) : List Str :=
  if sep = [] then [s] else splitOnSubAux sep s.length s

/-- Fuel-indexed worker for `replaceStr`. -/
def replaceAux (pat rep : Str) : Nat → Str → Str
  | 0, s => s
  | _ + 1, [] => []
  | fuel + 1, c :: t =>
    if startsWith pat (c :: t) then
      rep ++ replaceAux pat rep fuel ((c :: t).drop pat.length)
    else
      c :: replaceAux pat rep fuel t

/-- Model of Python `str.replace(pat, rep)`: left-to-right, non-overlapping. -/
def replaceStr (s pat rep : Str) : Str :=
  if pat = [] then s else replaceAux pat rep s.length s

/-- Model of Python substring containment (`sep in s`). -/
def containsSub (pat : Str) : Str → Bool
  | [] => startsWith pat []
  | c :: t => startsWith pat (c :: t) || containsSub pat t

/-- Model of Python `str.lower()` (ASCII range). -/
def pyLower (s : Str) : Str := s.map Char.toLower

/-- Model of Python `str.endswith(suf)`. -/
def endsWithStr (suf s : Str) : Bool :=
  decide (s.drop (s.length - suf.length) = suf)

/-- Exact model of a Python float produced by `float()` on a decimal
numeral: the value `mant / 10 ^ fexp`. -/
structure Dec where
  mant : Int
  fexp : Nat
deriving DecidableEq

/-- Value-level equality of two modelled floats (cross multiplication). -/
def Dec.veq (a b : Dec) : Prop :=
  a.mant * 10 ^ b.fexp = b.mant * 10 ^ a.fexp

/-- Value-level order on modelled floats (cross multiplication). -/
def Dec.vle (a b : Dec) : Prop :=
  a.mant * 10 ^ b.fexp ≤ b.mant * 10 ^ a.fexp

instance (a b : Dec) : Decidable (a.veq b) := by unfold Dec.veq; infer_instance

instance (a b : Dec) : Decidable (a.vle b) := by unfold Dec.vle; infer_instance

/-- Rational value of a modelled float, used only inside proofs. -/
def Dec.toRat (a : Dec) : ℚ := (a.mant : ℚ) / 10 ^ a.fexp

/-- Numeric value of a digit character. -/
def digitVal (c : Char) : Nat := c.toNat - 48

/-- Value of a string of digit characters, most significant first. -/
def natVal (s : Str) : Nat := s.foldl (fun a c => 10 * a + digitVal c) 0

/-- Leading optional sign of a numeral, as accepted by Python
`int()`/`float()`. -/
def readSign : Str → Int × Str
  | [] => (1, [])
  | c :: t =>
    if c = '+' then (1, t)
    else if c = '-' then (-1, t)
    else (1, c :: t)

/-- Model of Python `float(s)`, restricted to plain decimal numerals
(optional surrounding whitespace, optional sign, digits with an optional
fractional part; at least one digit).  Returns `none` where `float()`
raises `ValueError`. -/
def pyFloat? (s : Str) : Option Dec :=
  let t := pyStrip s
  let sg := (readSign t).1
  let u := (readSign t).2
  let ip := u.takeWhile Char.isDigit
  let r := u.dropWhile Char.isDigit
  match r with
  | [] => if ip = [] then none else some ⟨sg * natVal ip, 0⟩
  | c :: fr =>
    if c = '.' ∧ fr.all Char.isDigit ∧ (ip ≠ [] ∨ fr ≠ []) then
      some ⟨sg * ((natVal ip : Int) * 10 ^ fr.length + natVal fr), fr.length⟩
    else none

/-- Model of Python `int(s)` (optional surrounding whitespace, optional
sign, at least one digit).  Returns `none` where `int()` raises
`ValueError`. -/
def pyInt? (s : Str) : Option Int :=
  let t := pyStrip s
  let sg := (readSign t).1
  let u := (readSign t).2
  if u ≠ [] ∧ u.all Char.isDigit then some (sg * natVal u) else none

/-- Digit character for a value below ten. -/
def digitChar (d : Nat) : Char := Char.ofNat (48 + d)

/-- Fuel-indexed decimal rendering of a natural number. -/
def natStrAux : Nat → Nat → Str
  | 0, _ => []
  | fuel + 1, n =>
    if n < 10 then [digitChar n]
    else natStrAux fuel (n / 10) ++ [digitChar (n % 10)]

/-- Decimal rendering of a natural number, most significant digit first. -/
def natStr (n : Nat) : Str := natStrAux (n + 1) n

/-- Model of Python `str` on an `int` value. -/
def intStr (n : Int) : Str :=
  (if n < 0 then ['-'] else []) ++ natStr n.natAbs

/-- Normalisation step of float printing: drop trailing zero fractional
digits. -/
def decNorm : Int → Nat → Int × Nat
  | m, 0 => (m, 0)
  | m, e + 1 => if m % 10 = 0 then decNorm (m / 10) e else (m, e + 1)

/-- Fractional digits of a float rendering, zero-padded to width `e`
(`"0"` when the value is integral, as Python prints `"5.0"`). -/
def fracStr (e v : Nat) : Str :=
  if e = 0 then ['0']
  else List.replicate (e - (natStr v).length) '0' ++ natStr v

/-- Model of Python `str` on a float value arising from a decimal numeral
(shortest decimal form, always with a fractional part). -/
def floatStr (d : Dec) : Str :=
  (if (decNorm d.mant d.fexp).1 < 0 then ['-'] else []) ++
    natStr ((decNorm d.mant d.fexp).1.natAbs / 10 ^ (decNorm d.mant d.fexp).2) ++
    '.' :: fracStr (decNorm d.mant d.fexp).2
      ((decNorm d.mant d.fexp).1.natAbs % 10 ^ (decNorm d.mant d.fexp).2)

/-!
Backtracking regex matching, specialised to the three patterns the script
uses.  A greedy quantifier tries the longest candidate first and backtracks
one character at a time; matching is in continuation-passing style so that
backtracking interleaves correctly with the rest of the pattern, exactly as
in Python's `re`.  `re.search` scans start positions left to right.
-/

/-- First success of a continuation over a list of candidates. -/
def firstSome : List β → (β → Option α) → Option α
  | [], _ => none
  | b :: bs, k =>
    match k b with
    | some r => some r
    | none => firstSome bs k

/-- Splits `(s.take j, s.drop j)` for `j = i, i-1, ..., 1`. -/
def plusTries : Nat → Str → List (Str × Str)
  | 0, _ => []
  | i + 1, s => (s.take (i + 1), s.drop (i + 1)) :: plusTries i s

/-- Splits `(s.take j, s.drop j)` for `j = i, i-1, ..., 0`. -/
def starTries : Nat → Str → List (Str × Str)
  | 0, s => [([], s)]
  | i + 1, s => (s.take (i + 1), s.drop (i + 1)) :: starTries i s

/-- Greedy candidate splits for a `+`-quantified character class. -/
def plusSplits (p : Char → Bool) (s : Str) : List (Str × Str) :=
  plusTries (s.takeWhile p).length s

/-- Greedy candidate splits for a `*`-quantified character class. -/
def starSplits (p : Char → Bool) (s : Str) : List (Str × Str) :=
  starTries (s.takeWhile p).length s

/-- Match a literal character. -/
def lit (c : Char) (s : Str) (k : Str → Option α) : Option α :=
  match s with
  | [] => none
  | c' :: t => if c' = c then k t else none

/-- Greedy capturing `(class)+`. -/
def grpPlus (p : Char → Bool) (s : Str) (k : Str → Str → Option α) : Option α :=
  firstSome (plusSplits p s) fun g => k g.1 g.2

/-- Greedy non-capturing `class*`. -/
def skipStar (p : Char → Bool) (s : Str) (k : Str → Option α) : Option α :=
  firstSome (starSplits p s) fun g => k g.2

/-- Field separator of the primary pattern: `,\s*`. -/
def sepTok (s : Str) (k : Str → Option α) : Option α :=
  lit ',' s fun r => skipStar isPySpace r k

/-- Capturing decimal group `(\d+\.\d+)`. -/
def decGrp (s : Str) (k : Str → Str → Option α) : Option α :=
  grpPlus Char.isDigit s fun a r =>
  lit '.' r fun r =>
  grpPlus Char.isDigit r fun b r =>
  k (a ++ '.' :: b) r

/-- Character class `[\w\s.\-']` of the primary pattern's name group
(ASCII behaviour of `\w`). -/
def isNameChar (c : Char) : Bool :=
  c.isAlphanum || c = '_' || isPySpace c || c = '.' || c = '-' || c = Char.ofNat 39

/-- Captured groups of the primary pattern. -/
structure G7 where
  g1 : Str
  g2 : Str
  g3 : Str
  g4 : Str
  g5 : Str
  g6 : Str
  g7 : Str
deriving DecidableEq

/-- Match of the primary pattern
`(\d+),\s*([\w\s.\-']+),\s*(\d+\.\d+),\s*(\d+),\s*(\d+\.\d+),\s*(\d+),\s*(\d+\.\d+)`
anchored at the start of `s` (line 117 of `montarRanking.py`). -/
def matchAt (s : Str) : Option G7 :=
  grpPlus Char.isDigit s fun g1 r =>
  sepTok r fun r =>
  grpPlus isNameChar r fun g2 r =>
  sepTok r fun r =>
  decGrp r fun g3 r =>
  sepTok r fun r =>
  grpPlus Char.isDigit r fun g4 r =>
  sepTok r fun r =>
  decGrp r fun g5 r =>
  sepTok r fun r =>
  grpPlus Char.isDigit r fun g6 r =>
  sepTok r fun r =>
  decGrp r fun g7 _ =>
  some ⟨g1, g2, g3, g4, g5, g6, g7⟩

/-- Model of `re.search` for the primary pattern: leftmost match wins
(line 118 of `montarRanking.py`). -/
def primarySearch : Str → Option G7
  | [] => matchAt []
  | c :: t =>
    match matchAt (c :: t) with
    | some g => some g
    | none => primarySearch t

/-- Match of the header pattern `OPÇÃO (\d+): (.+)` anchored at the start
of `s` (line 75 of `montarRanking.py`); `.` does not match a newline. -/
def titleMatchAt (s : Str) : Option (Str × Str) :=
  if startsWith ("OPÇÃO ".toList) s then
    grpPlus Char.isDigit (s.drop ("OPÇÃO ".toList).length) fun g1 r =>
    if startsWith (": ".toList) r then
      grpPlus (fun c => c != '\n') (r.drop 2) fun g2 _ => some (g1, g2)
    else none
  else none

/-- Model of `re.search` for the header pattern (line 76). -/
def titleSearch : Str → Option (Str × Str)
  | [] => titleMatchAt []
  | c :: t =>
    match titleMatchAt (c :: t) with
    | some r => some r
    | none => titleSearch t

/-- Match of the line-wrap repair pattern `(\d+)\.\s+(\d+)` anchored at the
start of `s`, returning the replacement `\1.\2` and the remainder of the
string after the match (line 86 of `montarRanking.py`). -/
def subMatchAt (s : Str) : Option (Str × Str) :=
  grpPlus Char.isDigit s fun a r =>
  lit '.' r fun r =>
  grpPlus isPySpace r fun _ r =>
  grpPlus Char.isDigit r fun b r =>
  some (a ++ '.' :: b, r)

/-- Fuel-indexed worker for `pySubDec`: scan left to right, replacing each
non-overlapping match and continuing after it. -/
def pySubAux : Nat → Str → Str
  | 0, s => s
  | _ + 1, [] => []
  | fuel + 1, c :: t =>
    match subMatchAt (c :: t) with
    | some (rep, rest) => rep ++ pySubAux fuel rest
    | none => c :: pySubAux fuel t

/-- Model of `re.sub(r'(\d+)\.\s+(\d+)', r'\1.\2', content)` (line 86). -/
def pySubDec (s : Str) : Str := pySubAux s.length s

/-!
Extraction pipeline of `parse_candidates_data` (lines 60-192), the ranker
`build_ranking` (lines 194-211) and the file-output contract of
`display_ranking` (lines 295-440).
-/

/-- Raw seven-field tuple appended to `entries` (either `match.groups()` on
line 121 or the manually assembled tuple on lines 143-144). -/
structure Entry where
  f1 : Str
  f2 : Str
  f3 : Str
  f4 : Str
  f5 : Str
  f6 : Str
  f7 : Str
deriving DecidableEq

/-- Candidate record dictionary built on lines 172-180. -/
structure Candidate where
  registration : Str
  name : Str
  p1_score : Dec
  p1_correct : Int
  p2_score : Dec
  p2_correct : Int
  final_score : Dec
deriving DecidableEq

/-- Entry made from the groups of a primary-pattern match (line 121). -/
def entryOfG (g : G7) : Entry :=
  ⟨g.g1, g.g2, g.g3, g.g4, g.g5, g.g6, g.g7⟩

/-- Whitespace removal `parts[i].replace(' ', '')` applied to the numeric
fields of a fallback chunk (line 131); removes only the space character. -/
def fixNum (s : Str) : Str := replaceStr s [' '] []

/-- Manual fallback parsing of one chunk (lines 126-147): split on commas,
require at least seven parts, strip spaces inside the five numeric parts,
coerce them, and store the stringified coercions; any coercion failure
drops the chunk. -/
def fallbackEntries (c : Str) : List Entry :=
  let parts := (splitOnChar ',' c).map pyStrip
  if 7 ≤ parts.length then
    match pyFloat? (fixNum (parts.getD 2 [])), pyInt? (fixNum (parts.getD 3 [])),
        pyFloat? (fixNum (parts.getD 4 [])), pyInt? (fixNum (parts.getD 5 [])),
        pyFloat? (fixNum (parts.getD 6 [])) with
    | some p1, some c1, some p2, some c2, some fs =>
      [⟨parts.getD 0 [], parts.getD 1 [], floatStr p1, intStr c1, floatStr p2,
        intStr c2, floatStr fs⟩]
    | _, _, _, _, _ => []
  else []

/-- Entries contributed by one (already trimmed) chunk: primary pattern
first, manual fallback otherwise (lines 117-147). -/
def chunkStep (c : Str) : List Entry :=
  match primarySearch c with
  | some g => [entryOfG g]
  | none => fallbackEntries c

/-- Loop over candidate chunks (lines 96-147), carrying the
`candidates_data_started` flag: empty chunks are skipped; before data has
started, a chunk containing `OPÇÃO` is cut after the `SUBÁREA:` marker or
skipped entirely when the marker is absent. -/
def parseChunks : Bool → List Str → List Entry
  | _, [] => []
  | started, c :: rest =>
    let c' := pyStrip c
    if c' = [] then parseChunks started rest
    else if started = false ∧ containsSub ("OPÇÃO".toList) c' = true then
      let parts := splitOnSub ("SUBÁREA:".toList) c'
      if 1 < parts.length then
        chunkStep (pyStrip (parts.getD 1 [])) ++ parseChunks true rest
      else parseChunks started rest
    else chunkStep c' ++ parseChunks true rest

/-- Second pass over the collected entries (lines 156-186): strip the two
string fields, coerce the five numeric fields, and drop an entry whose
coercion fails. -/
def mkCandidate? (e : Entry) : Option Candidate := do
  let p1 ← pyFloat? e.f3
  let c1 ← pyInt? e.f4
  let p2 ← pyFloat? e.f5
  let c2 ← pyInt? e.f6
  let fs ← pyFloat? e.f7
  some ⟨pyStrip e.f1, pyStrip e.f2, p1, c1, p2, c2, fs⟩

/-- Candidate records built from the entry list (lines 152-186). -/
def candidatesOf (es : List Entry) : List Candidate :=
  es.filterMap mkCandidate?

/-- Whitespace normalisation of line 89: replace newlines by spaces, then
replace double spaces by single spaces. -/
def cleanedContent (s : Str) : Str :=
  replaceStr (replaceStr s ['\n'] [' ']) ("  ".toList) (" ".toList)

/-- Text normalisation and chunk splitting (lines 86-92): repair decimals
split by line wrapping, normalise whitespace, then split on the `/`
delimiter. -/
def candidateChunks (content : Str) : List Str :=
  splitOnChar '/' (cleanedContent (pySubDec content))

/-- Body of `parse_candidates_data` on a successfully read file content
(lines 75-188). -/
def parseContent (content : Str) : Str × Str × List Candidate :=
  let tm := titleSearch content
  let optionNumber := match tm with | some (n, _) => n | none => ("Unknown".toList)
  let optionTitle := match tm with | some (_, t) => t | none => ("Unknown".toList)
  (optionNumber, optionTitle, candidatesOf (parseChunks false (candidateChunks content)))

/-- Full `parse_candidates_data` (lines 60-192): `none` stands for a file
that cannot be read, in which case the handler on lines 190-192 returns the
sentinel triple. -/
def parseCandidatesData : Option Str → Str × Str × List Candidate
  | none => (("Unknown".toList), ("Unknown".toList), [])
  | some content => parseContent content

/-- Comparison used by `build_ranking`: `a` may stay before `b` when its
final score is at least `b`'s (descending order; `sorted` with
`reverse=True` is stable). -/
def finalLe (a b : Candidate) : Bool :=
  decide (Dec.vle b.final_score a.final_score)

/-- Model of `build_ranking` (line 209): Python's `sorted` is a stable
merge sort. -/
def buildRanking (candidates : List Candidate) : List Candidate :=
  candidates.mergeSort finalLe

/-- Output formats of `display_ranking`. -/
inductive OutKind
  | xlsx
  | csv
  | txt
deriving DecidableEq

/-- Observable file effect of `display_ranking`. -/
inductive ReportResult
  | noCandidates
  | displayedOnly
  | wrote (path : Str) (kind : OutKind)
deriving DecidableEq

/-- Extension reconciliation for spreadsheet output (lines 363-367). -/
def reconcileXlsx (f : Str) : Str :=
  if endsWithStr (".xlsx".toList) (pyLower f) then f
  else
    let n := replaceStr (replaceStr f (".txt".toList) (".xlsx".toList)) (".csv".toList) (".xlsx".toList)
    if endsWithStr (".xlsx".toList) (pyLower n) then n else n ++ (".xlsx".toList)

/-- Extension reconciliation for CSV output (lines 386-390). -/
def reconcileCsv (f : Str) : Str :=
  if endsWithStr (".csv".toList) (pyLower f) then f
  else
    let n := replaceStr (replaceStr f (".txt".toList) (".csv".toList)) (".xlsx".toList) (".csv".toList)
    if endsWithStr (".csv".toList) (pyLower n) then n else n ++ (".csv".toList)

/-- Extension reconciliation for plain-text output (lines 408-412). -/
def reconcileTxt (f : Str) : Str :=
  if endsWithStr (".txt".toList) (pyLower f) then f
  else
    let n := replaceStr (replaceStr f (".csv".toList) (".txt".toList)) (".xlsx".toList) (".txt".toList)
    if endsWithStr (".txt".toList) (pyLower n) then n else n ++ (".txt".toList)

/-- File-effect contract of `display_ranking` (lines 295-440): an empty
candidate list prints the no-candidates notice and returns before any file
work; otherwise a file is written only when an output path was given, under
the reconciled name for the requested format. -/
def displayRanking (outputFormat : Str) (outputFile : Option Str)
    (candidates : List Candidate) : ReportResult :=
  if candidates = [] then .noCandidates
  else
    match outputFile with
    | none => .displayedOnly
    | some f =>
      if pyLower outputFormat = ("xlsx".toList) then .wrote (reconcileXlsx f) .xlsx
      else if pyLower outputFormat = ("csv".toList) then .wrote (reconcileCsv f) .csv
      else .wrote (reconcileTxt f) .txt

/-!
Proof-support definitions: shape predicates for matched groups, the
head-condition used by the maximal-munch lemmas, a scanner deciding whether
a split decimal is present, and the canonical chunk used to compare the
fallback path with the primary pattern.
-/

/-- The first character of `s`, if any, fails `p`. -/
def headNot (p : Char → Bool) : Str → Prop
  | [] => True
  | c :: _ => p c = false

/-- Non-empty string of decimal digits. -/
def AllDigits (s : Str) : Prop :=
  s ≠ [] ∧ ∀ x ∈ s, x.isDigit = true

/-- Shape of a captured `(\d+\.\d+)` group. -/
def DecShape (t : Str) : Prop :=
  ∃ a b, AllDigits a ∧ AllDigits b ∧ t = a ++ '.' :: b

instance (s : Str) : Decidable (AllDigits s) := by unfold AllDigits; infer_instance

instance (p : Char → Bool) (s : Str) : Decidable (headNot p s) := by
  unfold headNot; cases s <;> infer_instance

/-- Scan for a match of the line-wrap pattern `(\d+)\.\s+(\d+)` anywhere in
`s` (leftmost). -/
def subSearch : Str → Option (Str × Str)
  | [] => subMatchAt []
  | c :: t =>
    match subMatchAt (c :: t) with
    | some r => some r
    | none => subSearch t

/-- Whether `s` still contains a decimal point separated from its
fractional digits by whitespace. -/
def hasSplitDecimal (s : Str) : Bool := (subSearch s).isSome

/-- Canonical single-candidate chunk `r1, r2, r3, r4, r5, r6, r7` built
from seven field strings. -/
def canonChunk (r1 r2 r3 r4 r5 r6 r7 : Str) : Str :=
  r1 ++ ',' :: ' ' :: (r2 ++ ',' :: ' ' :: (r3 ++ ',' :: ' ' ::
    (r4 ++ ',' :: ' ' :: (r5 ++ ',' :: ' ' :: (r6 ++ ',' :: ' ' :: r7)))))

/-- Stripped comma parts of a chunk, as computed by the fallback path
(line 126). -/
def fallbackParts (c : Str) : List Str :=
  (splitOnChar ',' c).map pyStrip

/-!
Lemmas about the matching combinators: soundness (a successful match
decomposes the input and constrains the captured groups) and forward
evaluation (on input of a known shape the greedy first attempt succeeds).
-/

theorem firstSome_head {k : β → Option α} {b : β} {bs : List β} {r : α}
    (h : k b = some r) : firstSome (b :: bs) k = some r := by
  simp only [firstSome, h]

theorem firstSome_sound {k : β → Option α} {r : α} :
    ∀ {l : List β}, firstSome l k = some r → ∃ b ∈ l, k b = some r := by
  intro l
  induction l with
  | nil => intro h; simp [firstSome] at h
  | cons b bs ih =>
    intro h
    rw [show firstSome (b :: bs) k =
        (match k b with | some v => some v | none => firstSome bs k) from rfl] at h
    cases hkb : k b with
    | some v =>
      rw [hkb] at h
      exact ⟨b, List.mem_cons_self b bs, hkb.trans (by exact h)⟩
    | none =>
      rw [hkb] at h
      obtain ⟨b', hmem, hk⟩ := ih h
      exact ⟨b', List.mem_cons_of_mem _ hmem, hk⟩

theorem plusTries_mem : ∀ {i : Nat} {s g t : Str}, (g, t) ∈ plusTries i s →
    ∃ j, j < i ∧ g = s.take (j + 1) ∧ t = s.drop (j + 1) := by
  intro i
  induction i with
  | zero => intro s g t h; simp [plusTries] at h
  | succ i ih =>
    intro s g t h
    rw [plusTries] at h
    rcases List.mem_cons.mp h with h | h
    · rw [Prod.mk.injEq] at h
      exact ⟨i, Nat.lt_succ_self i, h.1, h.2⟩
    · obtain ⟨j, hj, hg, ht⟩ := ih h
      exact ⟨j, Nat.lt_succ_of_lt hj, hg, ht⟩

theorem starTries_mem : ∀ {i : Nat} {s g t : Str}, (g, t) ∈ starTries i s →
    ∃ j, j ≤ i ∧ g = s.take j ∧ t = s.drop j := by
  intro i
  induction i with
  | zero =>
    intro s g t h
    simp only [starTries, List.mem_singleton, Prod.mk.injEq] at h
    exact ⟨0, Nat.le_refl 0, by simp [h.1], by simp [h.2]⟩
  | succ i ih =>
    intro s g t h
    rw [starTries] at h
    rcases List.mem_cons.mp h with h | h
    · rw [Prod.mk.injEq] at h
      exact ⟨i + 1, Nat.le_refl _, h.1, h.2⟩
    · obtain ⟨j, hj, hg, ht⟩ := ih h
      exact ⟨j, Nat.le_succ_of_le hj, hg, ht⟩

theorem takeWhile_append_all {p : Char → Bool} :
    ∀ {g t : Str}, (∀ x ∈ g, p x = true) → headNot p t → (g ++ t).takeWhile p = g := by
  intro g
  induction g with
  | nil =>
    intro t _ ht
    cases t with
    | nil => rfl
    | cons c u =>
      have hc : p c = false := ht
      simp [List.takeWhile_cons, hc]
  | cons c g ih =>
    intro t hall ht
    have hc : p c = true := hall c (List.mem_cons_self c g)
    simp only [List.cons_append, List.takeWhile_cons, hc, if_true]
    rw [ih (fun x hx => hall x (List.mem_cons_of_mem c hx)) ht]

theorem lit_run {c : Char} {t : Str} {k : Str → Option α} : lit c (c :: t) k = k t := by
  simp [lit]

theorem grpPlus_run {p : Char → Bool} {g t : Str} {k : Str → Str → Option α} {r : α}
    (hne : g ≠ []) (hall : ∀ x ∈ g, p x = true) (ht : headNot p t)
    (hk : k g t = some r) : grpPlus p (g ++ t) k = some r := by
  unfold grpPlus plusSplits
  rw [takeWhile_append_all hall ht]
  cases g with
  | nil => exact absurd rfl hne
  | cons c g' =>
    rw [List.length_cons, plusTries]
    apply firstSome_head
    show k (((c :: g') ++ t).take (g'.length + 1)) (((c :: g') ++ t).drop (g'.length + 1)) = some r
    rw [← List.length_cons c g', List.take_left, List.drop_left]
    exact hk

theorem skipStar_run {p : Char → Bool} {w t : Str} {k : Str → Option α} {r : α}
    (hall : ∀ x ∈ w, p x = true) (ht : headNot p t) (hk : k t = some r) :
    skipStar p (w ++ t) k = some r := by
  unfold skipStar starSplits
  rw [takeWhile_append_all hall ht]
  cases w with
  | nil =>
    simp only [List.length_nil, starTries]
    apply firstSome_head
    show k (([] : Str) ++ t) = some r
    simpa using hk
  | cons c w' =>
    rw [List.length_cons, starTries]
    apply firstSome_head
    show k (((c :: w') ++ t).drop (w'.length + 1)) = some r
    rw [← List.length_cons c w', List.drop_left]
    exact hk

theorem sepTok_run {w t : Str} {k : Str → Option α} {r : α}
    (hall : ∀ x ∈ w, isPySpace x = true) (ht : headNot isPySpace t) (hk : k t = some r) :
    sepTok (',' :: (w ++ t)) k = some r := by
  unfold sepTok
  rw [lit_run]
  exact skipStar_run hall ht hk

theorem decGrp_run {a b t : Str} {k : Str → Str → Option α} {r : α}
    (ha : AllDigits a) (hb : AllDigits b) (ht : headNot Char.isDigit t)
    (hk : k (a ++ '.' :: b) t = some r) :
    decGrp (a ++ '.' :: (b ++ t)) k = some r := by
  unfold decGrp
  have hdot : headNot Char.isDigit ('.' :: (b ++ t)) := by
    show Char.isDigit '.' = false
    decide
  apply grpPlus_run ha.1 ha.2 hdot
  rw [lit_run]
  exact grpPlus_run hb.1 hb.2 ht hk

theorem lit_sound {c : Char} {s : Str} {k : Str → Option α} {r : α}
    (h : lit c s k = some r) : ∃ t, s = c :: t ∧ k t = some r := by
  cases s with
  | nil => simp [lit] at h
  | cons c' t =>
    rw [show lit c (c' :: t) k = if c' = c then k t else none from rfl] at h
    split at h
    · next hc => exact ⟨t, by rw [hc], h⟩
    · exact absurd h (by simp)

theorem grpPlus_sound {p : Char → Bool} {s : Str} {k : Str → Str → Option α} {r : α}
    (h : grpPlus p s k = some r) :
    ∃ g t, g ≠ [] ∧ (∀ x ∈ g, p x = true) ∧ s = g ++ t ∧ k g t = some r := by
  unfold grpPlus plusSplits at h
  obtain ⟨⟨g, t⟩, hmem, hk⟩ := firstSome_sound h
  obtain ⟨j, hj, hg, ht⟩ := plusTries_mem hmem
  have hlen : j + 1 ≤ (s.takeWhile p).length := hj
  have hsl : (s.takeWhile p).length ≤ s.length := by
    conv_rhs => rw [← List.takeWhile_append_dropWhile p s]
    rw [List.length_append]
    exact Nat.le_add_right _ _
  refine ⟨g, t, ?_, ?_, ?_, hk⟩
  · subst hg
    intro hnil
    have hl := congrArg List.length hnil
    simp only [List.length_take, List.length_nil] at hl
    omega
  · subst hg
    intro x hx
    rw [← List.takeWhile_append_dropWhile p s, List.take_append_of_le_length hlen] at hx
    exact List.mem_takeWhile_imp (List.take_subset _ _ hx)
  · subst hg ht
    exact (List.take_append_drop (j + 1) s).symm

theorem skipStar_sound {p : Char → Bool} {s : Str} {k : Str → Option α} {r : α}
    (h : skipStar p s k = some r) : ∃ t, k t = some r := by
  unfold skipStar starSplits at h
  obtain ⟨⟨g, t⟩, hmem, hk⟩ := firstSome_sound h
  obtain ⟨j, _, _, ht⟩ := starTries_mem hmem
  exact ⟨t, hk⟩

theorem sepTok_sound {s : Str} {k : Str → Option α} {r : α}
    (h : sepTok s k = some r) : ∃ t, k t = some r := by
  unfold sepTok at h
  obtain ⟨t1, _, h⟩ := lit_sound h
  exact skipStar_sound h

theorem decGrp_sound {s : Str} {k : Str → Str → Option α} {r : α}
    (h : decGrp s k = some r) :
    ∃ a b t, AllDigits a ∧ AllDigits b ∧ k (a ++ '.' :: b) t = some r := by
  unfold decGrp at h
  obtain ⟨a, t1, ha, hpa, _, h⟩ := grpPlus_sound h
  obtain ⟨t2, _, h⟩ := lit_sound h
  obtain ⟨b, t3, hb, hpb, _, h⟩ := grpPlus_sound h
  exact ⟨a, b, t3, ⟨ha, hpa⟩, ⟨hb, hpb⟩, h⟩

/-!
Shapes of the groups captured by the primary pattern, and the behaviour of
the leftmost search.
-/

theorem matchAt_forms {s : Str} {g : G7} (h : matchAt s = some g) :
    AllDigits g.g1 ∧ (g.g2 ≠ [] ∧ ∀ x ∈ g.g2, isNameChar x = true) ∧ DecShape g.g3 ∧
    AllDigits g.g4 ∧ DecShape g.g5 ∧ AllDigits g.g6 ∧ DecShape g.g7 := by
  unfold matchAt at h
  obtain ⟨g1, t, h1ne, h1p, -, h⟩ := grpPlus_sound h
  obtain ⟨t, h⟩ := sepTok_sound h
  obtain ⟨g2, t2, h2ne, h2p, -, h⟩ := grpPlus_sound h
  obtain ⟨t, h⟩ := sepTok_sound h
  obtain ⟨a3, b3, t3, ha3, hb3, h⟩ := decGrp_sound h
  obtain ⟨t, h⟩ := sepTok_sound h
  obtain ⟨g4, t4, h4ne, h4p, -, h⟩ := grpPlus_sound h
  obtain ⟨t, h⟩ := sepTok_sound h
  obtain ⟨a5, b5, t5, ha5, hb5, h⟩ := decGrp_sound h
  obtain ⟨t, h⟩ := sepTok_sound h
  obtain ⟨g6, t6, h6ne, h6p, -, h⟩ := grpPlus_sound h
  obtain ⟨t, h⟩ := sepTok_sound h
  obtain ⟨a7, b7, t7, ha7, hb7, h⟩ := decGrp_sound h
  have hg := Option.some.inj h
  subst hg
  exact ⟨⟨h1ne, h1p⟩, ⟨h2ne, h2p⟩, ⟨a3, b3, ha3, hb3, rfl⟩, ⟨h4ne, h4p⟩,
    ⟨a5, b5, ha5, hb5, rfl⟩, ⟨h6ne, h6p⟩, ⟨a7, b7, ha7, hb7, rfl⟩⟩

theorem matchAt_nil : matchAt ([] : Str) = none := by decide

theorem primarySearch_of_matchAt {s : Str} {g : G7} (h : matchAt s = some g) :
    primarySearch s = some g := by
  cases s with
  | nil => rw [primarySearch]; exact h
  | cons c t => rw [primarySearch, h]

theorem primarySearch_sound {g : G7} :
    ∀ {s : Str}, primarySearch s = some g → ∃ i, matchAt (s.drop i) = some g := by
  intro s
  induction s with
  | nil => intro h; rw [primarySearch] at h; exact ⟨0, h⟩
  | cons c t ih =>
    intro h
    rw [primarySearch] at h
    cases hm : matchAt (c :: t) with
    | some g' => rw [hm] at h; exact ⟨0, hm.trans (by exact h)⟩
    | none =>
      rw [hm] at h
      obtain ⟨i, hi⟩ := ih h
      exact ⟨i + 1, by simpa using hi⟩

theorem primarySearch_leftmost {g : G7} :
    ∀ {s : Str}, primarySearch s = some g →
      ∃ i, matchAt (s.drop i) = some g ∧ ∀ j < i, matchAt (s.drop j) = none := by
  intro s
  induction s with
  | nil =>
    intro h
    rw [primarySearch] at h
    exact ⟨0, h, by omega⟩
  | cons c t ih =>
    intro h
    rw [primarySearch] at h
    cases hm : matchAt (c :: t) with
    | some g' =>
      rw [hm] at h
      exact ⟨0, hm.trans (by exact h), by omega⟩
    | none =>
      rw [hm] at h
      obtain ⟨i, hi, hmin⟩ := ih h
      refine ⟨i + 1, by simpa using hi, ?_⟩
      intro j hj
      cases j with
      | zero => exact hm
      | succ j => simpa using hmin j (by omega)

theorem primarySearch_complete :
    ∀ {s : Str} {i : Nat} {g : G7}, matchAt (s.drop i) = some g →
      ∃ g', primarySearch s = some g' := by
  intro s
  induction s with
  | nil =>
    intro i g h
    rw [List.drop_nil] at h
    exact ⟨g, by rw [primarySearch]; exact h⟩
  | cons c t ih =>
    intro i g h
    cases hm : matchAt (c :: t) with
    | some g' => exact ⟨g', primarySearch_of_matchAt hm⟩
    | none =>
      cases i with
      | zero => rw [List.drop_zero] at h; exact absurd h (by rw [hm]; simp)
      | succ i =>
        rw [show (c :: t).drop (i + 1) = t.drop i from rfl] at h
        obtain ⟨g', hg'⟩ := ih h
        exact ⟨g', by rw [primarySearch, hm]; exact hg'⟩

/-!
Character-class facts and facts about `pyStrip` needed for the coercion
lemmas.
-/

theorem space_not_digit {c : Char} (h : isPySpace c = true) : c.isDigit = false := by
  simp only [isPySpace, Bool.or_eq_true, decide_eq_true_eq] at h
  rcases h with ((((rfl | rfl) | rfl) | rfl) | rfl) | rfl <;> decide

theorem digit_not_space {c : Char} (h : c.isDigit = true) : isPySpace c = false := by
  cases hs : isPySpace c with
  | false => rfl
  | true => rw [space_not_digit hs] at h; exact absurd h (by simp)

theorem headNot_append_left {p : Char → Bool} {g t : Str}
    (hne : g ≠ []) (h : headNot p g) : headNot p (g ++ t) := by
  cases g with
  | nil => exact absurd rfl hne
  | cons c g' => exact h

theorem headNot_of_allDigits_space {g : Str} (h : AllDigits g) : headNot isPySpace g := by
  cases g with
  | nil => trivial
  | cons c g' => exact digit_not_space (h.2 c (List.mem_cons_self c g'))

theorem dropWhile_headNot (p : Char → Bool) (s : Str) : headNot p (s.dropWhile p) := by
  induction s with
  | nil => trivial
  | cons c t ih =>
    rw [List.dropWhile_cons]
    split
    · exact ih
    · next hc => simpa [headNot] using hc

theorem dropWhile_eq_self_of_headNot {p : Char → Bool} {s : Str}
    (h : headNot p s) : s.dropWhile p = s := by
  cases s with
  | nil => rfl
  | cons c t => rw [List.dropWhile_cons, h]; simp

theorem pyStrip_leading (s : Str) : pyStrip s <+: s.dropWhile isPySpace := by
  apply List.reverse_suffix.mp
  unfold pyStrip
  rw [List.reverse_reverse]
  exact List.dropWhile_suffix _

theorem headNot_of_prefix {p : Char → Bool} {a b : Str} (hpre : a <+: b)
    (h : headNot p b) : headNot p a := by
  cases a with
  | nil => trivial
  | cons c a' =>
    obtain ⟨u, hu⟩ := hpre
    rw [← hu] at h
    exact h

theorem pyStrip_headNot (s : Str) : headNot isPySpace (pyStrip s) :=
  headNot_of_prefix (pyStrip_leading s) (dropWhile_headNot _ _)

theorem pyStrip_eq_self {s : Str} (h1 : headNot isPySpace s)
    (h2 : headNot isPySpace s.reverse) : pyStrip s = s := by
  unfold pyStrip
  rw [dropWhile_eq_self_of_headNot h1, dropWhile_eq_self_of_headNot h2, List.reverse_reverse]

/-!
Success of the numeric coercions on the shapes produced by the primary
pattern.
-/

theorem dropWhile_append_all {p : Char → Bool} :
    ∀ {g t : Str}, (∀ x ∈ g, p x = true) → headNot p t → (g ++ t).dropWhile p = t := by
  intro g
  induction g with
  | nil => intro t _ ht; exact dropWhile_eq_self_of_headNot ht
  | cons c g ih =>
    intro t hall ht
    have hc : p c = true := hall c (List.mem_cons_self c g)
    simp only [List.cons_append, List.dropWhile_cons, hc, if_true]
    exact ih (fun x hx => hall x (List.mem_cons_of_mem c hx)) ht

theorem headNot_rev_space {b : Str} (hb : ∀ x ∈ b, x.isDigit = true) :
    headNot isPySpace b.reverse := by
  cases hrev : b.reverse with
  | nil => trivial
  | cons c u =>
    have hc : c ∈ b := by
      rw [← List.mem_reverse, hrev]
      exact List.mem_cons_self c u
    exact digit_not_space (hb c hc)

theorem readSign_digit {c : Char} {t : Str} (h : c.isDigit = true) :
    readSign (c :: t) = (1, c :: t) := by
  have h1 : ¬ c = '+' := fun hc => by rw [hc] at h; exact absurd h (by decide)
  have h2 : ¬ c = '-' := fun hc => by rw [hc] at h; exact absurd h (by decide)
  simp [readSign, h1, h2]

theorem pyStrip_allDigits {t : Str} (h : AllDigits t) : pyStrip t = t := by
  refine pyStrip_eq_self ?_ (headNot_rev_space h.2)
  cases t with
  | nil => trivial
  | cons c u => exact digit_not_space (h.2 c (List.mem_cons_self c u))

theorem pyInt?_allDigits {t : Str} (h : AllDigits t) : ∃ n, pyInt? t = some n := by
  obtain ⟨c, a', rfl⟩ : ∃ c a', t = c :: a' := by
    cases t with
    | nil => exact absurd rfl h.1
    | cons c a' => exact ⟨c, a', rfl⟩
  have hsign : readSign (c :: a') = (1, c :: a') :=
    readSign_digit (h.2 c (List.mem_cons_self c a'))
  simp only [pyInt?, pyStrip_allDigits h, hsign]
  rw [if_pos ⟨h.1, List.all_eq_true.mpr h.2⟩]
  exact ⟨_, rfl⟩

theorem pyFloat?_decShape {t : Str} (h : DecShape t) : ∃ d, pyFloat? t = some d := by
  obtain ⟨a, b, ha, hb, rfl⟩ := h
  have hdot : headNot Char.isDigit ('.' :: b) := by
    show Char.isDigit '.' = false
    decide
  have hstrip : pyStrip (a ++ '.' :: b) = a ++ '.' :: b := by
    refine pyStrip_eq_self ?_ ?_
    · exact headNot_append_left ha.1 (headNot_of_allDigits_space ha)
    · rw [List.reverse_append, List.reverse_cons]
      refine headNot_append_left ?_ ?_
      · simp [hb.1]
      · exact headNot_append_left (by simpa using hb.1) (headNot_rev_space hb.2)
  obtain ⟨c, a', rfl⟩ : ∃ c a', a = c :: a' := by
    cases a with
    | nil => exact absurd rfl ha.1
    | cons c a' => exact ⟨c, a', rfl⟩
  have hsign : readSign ((c :: a') ++ '.' :: b) = (1, (c :: a') ++ '.' :: b) := by
    exact readSign_digit (ha.2 c (List.mem_cons_self c a'))
  simp only [pyFloat?, hstrip, hsign]
  rw [takeWhile_append_all ha.2 hdot, dropWhile_append_all ha.2 hdot]
  simp only []
  rw [if_pos ⟨trivial, List.all_eq_true.mpr hb.2, Or.inl (by simp)⟩]
  exact ⟨_, rfl⟩

theorem mkCandidate?_entry {g : G7} (h3 : DecShape g.g3) (h4 : AllDigits g.g4)
    (h5 : DecShape g.g5) (h6 : AllDigits g.g6) (h7 : DecShape g.g7) :
    ∃ r, mkCandidate? (entryOfG g) = some r ∧
      r.registration = pyStrip g.g1 ∧ r.name = pyStrip g.g2 ∧
      pyFloat? g.g3 = some r.p1_score ∧ pyInt? g.g4 = some r.p1_correct ∧
      pyFloat? g.g5 = some r.p2_score ∧ pyInt? g.g6 = some r.p2_correct ∧
      pyFloat? g.g7 = some r.final_score := by
  obtain ⟨d3, hd3⟩ := pyFloat?_decShape h3
  obtain ⟨n4, hn4⟩ := pyInt?_allDigits h4
  obtain ⟨d5, hd5⟩ := pyFloat?_decShape h5
  obtain ⟨n6, hn6⟩ := pyInt?_allDigits h6
  obtain ⟨d7, hd7⟩ := pyFloat?_decShape h7
  refine ⟨⟨pyStrip g.g1, pyStrip g.g2, d3, n4, d5, n6, d7⟩, ?_, rfl, rfl,
    by rw [hd3], by rw [hn4], by rw [hd5], by rw [hn6], by rw [hd7]⟩
  simp [mkCandidate?, entryOfG, hd3, hn4, hd5, hn6, hd7]

/-!
Unfolding lemma for the chunk loop once candidate data has started.
-/

theorem parseChunks_cons_started {c : Str} {rest : List Str} (h : pyStrip c ≠ []) :
    parseChunks true (c :: rest) = chunkStep (pyStrip c) ++ parseChunks true rest := by
  rw [parseChunks]
  simp [h]

theorem primarySearch_nil : primarySearch ([] : Str) = none := by decide

/-- C1: for every chunk the primary pattern matches, extraction appends
exactly one entry, namely the matched groups, and the second pass coerces
it into exactly one candidate record whose seven fields are the stripped
first two groups and the numeric coercions of the other five. -/
theorem primary_match_yields_one_record (c : Str) (g : G7) (rest : List Str)
    (h : primarySearch (pyStrip c) = some g) :
    ∃ r, parseChunks true (c :: rest) = entryOfG g :: parseChunks true rest ∧
      mkCandidate? (entryOfG g) = some r ∧
      (∀ es : List Entry, candidatesOf (entryOfG g :: es) = r :: candidatesOf es) ∧
      r.registration = pyStrip g.g1 ∧ r.name = pyStrip g.g2 ∧
      pyFloat? g.g3 = some r.p1_score ∧ pyInt? g.g4 = some r.p1_correct ∧
      pyFloat? g.g5 = some r.p2_score ∧ pyInt? g.g6 = some r.p2_correct ∧
      pyFloat? g.g7 = some r.final_score := by
  obtain ⟨i, hm⟩ := primarySearch_sound h
  obtain ⟨hf1, hf2, hf3, hf4, hf5, hf6, hf7⟩ := matchAt_forms hm
  obtain ⟨r, hr, hreg, hname, h3, h4, h5, h6, h7⟩ := mkCandidate?_entry hf3 hf4 hf5 hf6 hf7
  have hne : pyStrip c ≠ [] := by
    intro hnil
    rw [hnil, primarySearch_nil] at h
    exact absurd h (by simp)
  refine ⟨r, ?_, hr, ?_, hreg, hname, h3, h4, h5, h6, h7⟩
  · rw [parseChunks_cons_started hne,
      show chunkStep (pyStrip c) = [entryOfG g] from by unfold chunkStep; rw [h]]
    rfl
  · intro es
    simp [candidatesOf, List.filterMap_cons, hr]

/-- Witness for C1 at a concrete chunk. -/
theorem primary_match_yields_one_record_witness :
    primarySearch (pyStrip ("1, A, 2.5, 3, 4.5, 6, 7.25".toList)) =
      some ⟨("1".toList), ("A".toList), ("2.5".toList), ("3".toList),
        ("4.5".toList), ("6".toList), ("7.25".toList)⟩ ∧
    ∃ r, parseChunks true (("1, A, 2.5, 3, 4.5, 6, 7.25".toList) :: []) =
        entryOfG ⟨("1".toList), ("A".toList), ("2.5".toList), ("3".toList),
          ("4.5".toList), ("6".toList), ("7.25".toList)⟩ :: parseChunks true [] ∧
      mkCandidate? (entryOfG ⟨("1".toList), ("A".toList), ("2.5".toList), ("3".toList),
          ("4.5".toList), ("6".toList), ("7.25".toList)⟩) = some r ∧
      (∀ es : List Entry, candidatesOf (entryOfG ⟨("1".toList), ("A".toList), ("2.5".toList),
          ("3".toList), ("4.5".toList), ("6".toList), ("7.25".toList)⟩ :: es) =
        r :: candidatesOf es) ∧
      r.registration = pyStrip ("1".toList) ∧ r.name = pyStrip ("A".toList) ∧
      pyFloat? ("2.5".toList) = some r.p1_score ∧ pyInt? ("3".toList) = some r.p1_correct ∧
      pyFloat? ("4.5".toList) = some r.p2_score ∧ pyInt? ("6".toList) = some r.p2_correct ∧
      pyFloat? ("7.25".toList) = some r.final_score :=
  ⟨by decide, primary_match_yields_one_record _ _ [] (by decide)⟩

/-- C9: primary-pattern acceptance is a substring search: whenever the
pattern matches somewhere inside a chunk, the leftmost match alone
determines the single record built from the chunk, the fallback path is
never consulted, and surrounding text is ignored. -/
theorem primary_is_substring_search (c : Str) (i : Nat) (rest : List Str)
    (h : matchAt ((pyStrip c).drop i) ≠ none) :
    ∃ g i₀ r,
      primarySearch (pyStrip c) = some g ∧
      matchAt ((pyStrip c).drop i₀) = some g ∧
      (∀ j < i₀, matchAt ((pyStrip c).drop j) = none) ∧
      parseChunks true (c :: rest) = entryOfG g :: parseChunks true rest ∧
      mkCandidate? (entryOfG g) = some r := by
  obtain ⟨g0, hg0⟩ : ∃ g0, matchAt ((pyStrip c).drop i) = some g0 := by
    cases hm : matchAt ((pyStrip c).drop i) with
    | none => exact absurd hm h
    | some g0 => exact ⟨g0, rfl⟩
  obtain ⟨g, hsearch⟩ := primarySearch_complete hg0
  obtain ⟨i₀, hi₀, hmin⟩ := primarySearch_leftmost hsearch
  obtain ⟨hf1, hf2, hf3, hf4, hf5, hf6, hf7⟩ := matchAt_forms hi₀
  obtain ⟨r, hr, -, -, -, -, -, -, -⟩ := mkCandidate?_entry hf3 hf4 hf5 hf6 hf7
  have hne : pyStrip c ≠ [] := by
    intro hnil
    rw [hnil, primarySearch_nil] at hsearch
    exact absurd hsearch (by simp)
  refine ⟨g, i₀, r, hsearch, hi₀, hmin, ?_, hr⟩
  rw [parseChunks_cons_started hne,
    show chunkStep (pyStrip c) = [entryOfG g] from by unfold chunkStep; rw [hsearch]]
  rfl

/-- Witness for C9 at a chunk with junk before and after the match. -/
theorem primary_is_substring_search_witness :
    matchAt ((pyStrip ("junk! 12, Ann, 1.0, 2, 3.0, 4, 5.0 trailing".toList)).drop 6) ≠ none ∧
    ∃ g i₀ r,
      primarySearch (pyStrip ("junk! 12, Ann, 1.0, 2, 3.0, 4, 5.0 trailing".toList)) = some g ∧
      matchAt ((pyStrip ("junk! 12, Ann, 1.0, 2, 3.0, 4, 5.0 trailing".toList)).drop i₀) = some g ∧
      (∀ j < i₀, matchAt ((pyStrip ("junk! 12, Ann, 1.0, 2, 3.0, 4, 5.0 trailing".toList)).drop j) = none) ∧
      parseChunks true (("junk! 12, Ann, 1.0, 2, 3.0, 4, 5.0 trailing".toList) :: []) =
        entryOfG g :: parseChunks true [] ∧
      mkCandidate? (entryOfG g) = some r :=
  ⟨by decide, primary_is_substring_search _ 6 [] (by decide)⟩

/-- C6: a chunk on which the primary pattern fails and whose comma split
has fewer than seven parts contributes nothing; the loop simply moves on
to the remaining chunks. -/
theorem malformed_chunk_dropped (c : Str) (rest : List Str)
    (hne : pyStrip c ≠ [])
    (hpf : primarySearch (pyStrip c) = none)
    (hlen : (splitOnChar ',' (pyStrip c)).length < 7) :
    parseChunks true (c :: rest) = parseChunks true rest := by
  have hstep : chunkStep (pyStrip c) = [] := by
    simp only [chunkStep, hpf, fallbackEntries, List.length_map]
    rw [if_neg (by omega)]
  rw [parseChunks_cons_started hne, hstep, List.nil_append]

/-- Witness for C6 at a concrete malformed chunk. -/
theorem malformed_chunk_dropped_witness :
    pyStrip ("x, y".toList) ≠ [] ∧
    primarySearch (pyStrip ("x, y".toList)) = none ∧
    (splitOnChar ',' (pyStrip ("x, y".toList))).length < 7 ∧
    parseChunks true (("x, y".toList) :: [("1, A, 2.5, 3, 4.5, 6, 7.25".toList)]) =
      parseChunks true [("1, A, 2.5, 3, 4.5, 6, 7.25".toList)] :=
  ⟨by decide, by decide, by decide,
    malformed_chunk_dropped _ _ (by decide) (by decide) (by decide)⟩

/-!
Order-theoretic facts about the modelled float values, and the ranking
claim.
-/

theorem Dec.veq_iff {a b : Dec} : a.veq b ↔ a.toRat = b.toRat := by
  unfold Dec.veq Dec.toRat
  rw [div_eq_div_iff (by positivity) (by positivity)]
  constructor <;> intro h <;> exact_mod_cast h

theorem Dec.vle_iff {a b : Dec} : a.vle b ↔ a.toRat ≤ b.toRat := by
  unfold Dec.vle Dec.toRat
  rw [div_le_div_iff₀ (by positivity) (by positivity)]
  constructor <;> intro h <;> exact_mod_cast h

theorem finalLe_trans : ∀ a b c : Candidate,
    finalLe a b = true → finalLe b c = true → finalLe a c = true := by
  intro a b c hab hbc
  simp only [finalLe, decide_eq_true_eq, Dec.vle_iff] at *
  exact le_trans hbc hab

theorem finalLe_total : ∀ a b : Candidate, (finalLe a b || finalLe b a) = true := by
  intro a b
  simp only [finalLe, Bool.or_eq_true, decide_eq_true_eq, Dec.vle_iff]
  exact le_total _ _

/-- C2: `build_ranking` returns a permutation of its input that is sorted
by final score in descending order, and candidates with value-equal final
scores keep their relative input order (stability); being a total Lean
function, it is defined on every well-typed input. -/
theorem build_ranking_spec (l : List Candidate) :
    (buildRanking l).Perm l ∧
    (buildRanking l).Pairwise (fun a b => Dec.vle b.final_score a.final_score) ∧
    ∀ q : Dec, (buildRanking l).filter (fun c => decide (Dec.veq c.final_score q)) =
      l.filter (fun c => decide (Dec.veq c.final_score q)) := by
  refine ⟨List.mergeSort_perm l finalLe, ?_, ?_⟩
  · have h := @List.sorted_mergeSort Candidate finalLe finalLe_trans finalLe_total l
    exact h.imp (fun hab => by simpa [finalLe, decide_eq_true_eq] using hab)
  · intro q
    have hsub : (l.filter (fun c => decide (Dec.veq c.final_score q))).Sublist l :=
      List.filter_sublist l
    have hpair : (l.filter (fun c => decide (Dec.veq c.final_score q))).Pairwise
        (fun a b => finalLe a b = true) := by
      rw [List.pairwise_iff_forall_sublist]
      intro a b hab
      have ha := (List.mem_filter.mp (hab.subset (by simp : a ∈ [a, b]))).2
      have hb := (List.mem_filter.mp (hab.subset (by simp : b ∈ [a, b]))).2
      simp only [decide_eq_true_eq, Dec.veq_iff] at ha hb
      simp only [finalLe, decide_eq_true_eq, Dec.vle_iff]
      rw [ha, hb]
    have hstable := List.sublist_mergeSort finalLe_trans finalLe_total hpair hsub
    have hall : (l.filter (fun c => decide (Dec.veq c.final_score q))).filter
        (fun c => decide (Dec.veq c.final_score q)) =
        l.filter (fun c => decide (Dec.veq c.final_score q)) :=
      List.filter_eq_self.mpr fun a ha => (List.mem_filter.mp ha).2
    have hsub2 : (l.filter (fun c => decide (Dec.veq c.final_score q))).Sublist
        ((buildRanking l).filter (fun c => decide (Dec.veq c.final_score q))) := by
      rw [← hall]
      exact List.Sublist.filter _ hstable
    have hlen : ((buildRanking l).filter (fun c => decide (Dec.veq c.final_score q))).length =
        (l.filter (fun c => decide (Dec.veq c.final_score q))).length :=
      ((List.mergeSort_perm l finalLe).filter _).length_eq
    exact (hsub2.eq_of_length hlen.symm).symm

/-!
Behaviour of the whitespace normalisation (line 89).
-/

theorem replaceAux_nil (pat rep : Str) (fuel : Nat) : replaceAux pat rep fuel [] = [] := by
  cases fuel <;> rfl

theorem mem_replaceAux {pat rep : Str} {x : Char} :
    ∀ {fuel : Nat} {s : Str}, x ∈ replaceAux pat rep fuel s → x ∈ rep ∨ x ∈ s := by
  intro fuel
  induction fuel with
  | zero => intro s h; exact Or.inr h
  | succ fuel ih =>
    intro s h
    cases s with
    | nil => simp [replaceAux] at h
    | cons c t =>
      rw [replaceAux] at h
      split at h
      · rcases List.mem_append.mp h with h | h
        · exact Or.inl h
        · rcases ih h with h | h
          · exact Or.inl h
          · exact Or.inr (List.drop_subset _ _ h)
      · rcases List.mem_cons.mp h with h | h
        · exact Or.inr (h ▸ List.mem_cons_self c t)
        · rcases ih h with h | h
          · exact Or.inl h
          · exact Or.inr (List.mem_cons_of_mem c h)

theorem replaceAux_single_removes {c : Char} {rep : Str} (hc : c ∉ rep) :
    ∀ (fuel : Nat) (s : Str), s.length ≤ fuel → c ∉ replaceAux [c] rep fuel s := by
  intro fuel
  induction fuel with
  | zero =>
    intro s hlen
    rw [List.length_eq_zero.mp (Nat.le_zero.mp hlen)]
    simp [replaceAux]
  | succ fuel ih =>
    intro s hlen
    cases s with
    | nil => simp [replaceAux]
    | cons c0 t =>
      rw [replaceAux]
      split
      · next hsw =>
        intro hmem
        rcases List.mem_append.mp hmem with h | h
        · exact hc h
        · exact ih _ (by simpa using Nat.le_of_succ_le_succ (by simpa using hlen)) h
      · next hsw =>
        intro hmem
        rcases List.mem_cons.mp hmem with h | h
        · apply hsw
          subst h
          simp [startsWith]
        · exact ih t (Nat.le_of_succ_le_succ (by simpa using hlen)) h

theorem cleanedContent_no_newline (s : Str) : '\n' ∉ cleanedContent s := by
  intro hmem
  unfold cleanedContent replaceStr at hmem
  rw [if_neg (by simp), if_neg (by simp)] at hmem
  rcases mem_replaceAux hmem with h | h
  · simp at h
  · exact replaceAux_single_removes (by simp) _ s (Nat.le_refl _) h

theorem replaceAux_pair_replicate :
    ∀ (fuel n : Nat), n ≤ fuel →
      replaceAux ("  ".toList) (" ".toList) fuel (List.replicate n ' ') =
      List.replicate ((n + 1) / 2) ' ' := by
  intro fuel
  induction fuel with
  | zero =>
    intro n hn
    rw [Nat.le_zero.mp hn]
    simp [replaceAux]
  | succ fuel ih =>
    intro n hn
    match n with
    | 0 => simp [replaceAux]
    | 1 =>
      show replaceAux ("  ".toList) (" ".toList) (fuel + 1) [' '] = [' ']
      rw [replaceAux, if_neg (by simp [startsWith]), replaceAux_nil]
    | n + 2 =>
      rw [List.replicate_succ, List.replicate_succ, replaceAux,
        if_pos (by simp [startsWith])]
      have hdrop : (' ' :: ' ' :: List.replicate n ' ').drop ("  ".toList).length =
          List.replicate n ' ' := rfl
      rw [hdrop, ih n (by omega)]
      rw [show (n + 2 + 1) / 2 = (n + 1) / 2 + 1 from by omega, List.replicate_succ]
      rfl

/-- Counterexample to C4: three newlines become three spaces, the single
double-space replacement pass leaves two adjacent spaces. -/
theorem normalize_counterexample :
    cleanedContent ("a\n\n\nb".toList) = ("a  b".toList) ∧
    containsSub ("  ".toList) (cleanedContent ("a\n\n\nb".toList)) = true := by
  constructor <;> decide

/-- C4 (amended): normalisation replaces every newline with a space and
then makes one left-to-right non-overlapping pass replacing each double
space with a single space, so the text handed to chunk splitting contains
no newline, but a run of `n` spaces shrinks only to `(n+1)/2` spaces and
may still contain adjacent spaces. -/
theorem normalize_spec :
    (∀ s : Str, '\n' ∉ cleanedContent s) ∧
    (∀ n : Nat, replaceStr (List.replicate n ' ') ("  ".toList) (" ".toList) =
      List.replicate ((n + 1) / 2) ' ') := by
  refine ⟨cleanedContent_no_newline, ?_⟩
  intro n
  unfold replaceStr
  rw [if_neg (by simp), List.length_replicate]
  exact replaceAux_pair_replicate n n (Nat.le_refl n)

/-!
Behaviour of the decimal-reassembly substitution (line 86).
-/

theorem pySubAux_nil (fuel : Nat) : pySubAux fuel [] = [] := by
  cases fuel <;> rfl

theorem subMatchAt_canon {d1 w d2 : Str} (h1 : AllDigits d1) (hw : w ≠ [])
    (hwall : ∀ x ∈ w, isPySpace x = true) (h2 : AllDigits d2) :
    subMatchAt (d1 ++ '.' :: (w ++ d2)) = some (d1 ++ '.' :: d2, []) := by
  unfold subMatchAt
  have hdot : headNot Char.isDigit ('.' :: (w ++ d2)) := by
    show Char.isDigit '.' = false
    decide
  apply grpPlus_run h1.1 h1.2 hdot
  rw [lit_run]
  apply grpPlus_run hw hwall (headNot_of_allDigits_space h2)
  conv_lhs => rw [show (d2 : Str) = d2 ++ [] from (List.append_nil d2).symm]
  exact grpPlus_run h2.1 h2.2 trivial rfl

/-- Counterexample to C5: in `1. 2. 3` the first rejoin consumes the `2`,
so the split decimal `2. 3` survives the single global pass. -/
theorem decimal_rejoin_counterexample :
    pySubDec ("1. 2. 3".toList) = ("1.2. 3".toList) ∧
    hasSplitDecimal ("1. 2. 3".toList) = true ∧
    hasSplitDecimal (pySubDec ("1. 2. 3".toList)) = true := by
  refine ⟨by decide, by decide, by decide⟩

/-- C5 (amended): the rewrite runs once, globally, before the split on the
`/` delimiter, and a decimal point separated from its fractional digits by
whitespace is rejoined whenever the separated occurrence is the match the
left-to-right scan finds (here: the whole text); an occurrence overlapping
an earlier replacement may survive. -/
theorem decimal_rejoin_spec :
    (∀ d1 w d2 : Str, AllDigits d1 → w ≠ [] → (∀ x ∈ w, isPySpace x = true) →
      AllDigits d2 → pySubDec (d1 ++ '.' :: (w ++ d2)) = d1 ++ '.' :: d2) ∧
    (∀ content : Str, candidateChunks content =
      splitOnChar '/' (cleanedContent (pySubDec content))) := by
  constructor
  · intro d1 w d2 h1 hw hwall h2
    obtain ⟨c, d1', rfl⟩ : ∃ c d1', d1 = c :: d1' := by
      cases d1 with
      | nil => exact absurd rfl h1.1
      | cons c d1' => exact ⟨c, d1', rfl⟩
    have hsub := subMatchAt_canon h1 hw hwall h2
    unfold pySubDec
    rw [List.cons_append, List.length_cons, pySubAux]
    rw [List.cons_append] at hsub
    rw [hsub]
    simp only [pySubAux_nil, List.append_nil]
  · intro content
    rfl

/-- Witness for the amended C5 at the spec's own scenario: digits `9.`
then a newline then `75` normalise to `9.75`. -/
theorem decimal_rejoin_spec_witness :
    (AllDigits ("9".toList) ∧ ("\n".toList) ≠ ([] : Str) ∧
      (∀ x ∈ ("\n".toList), isPySpace x = true) ∧ AllDigits ("75".toList)) ∧
    pySubDec (("9".toList) ++ '.' :: (("\n".toList) ++ ("75".toList))) =
      ("9".toList) ++ '.' :: ("75".toList) :=
  ⟨⟨by decide, by decide, by decide, by decide⟩,
    decimal_rejoin_spec.1 _ _ _ (by decide) (by decide) (by decide) (by decide)⟩

/-!
Degenerate inputs of the extractor, and the report builder's file-effect
contract.
-/

/-- C7: an unreadable file and an empty file both yield the sentinel
metadata with an empty record list, and the report builder on an empty
record list prints the no-candidates notice and writes no file. -/
theorem empty_or_unreadable_input :
    parseCandidatesData none = (("Unknown".toList), ("Unknown".toList), []) ∧
    parseCandidatesData (some []) = (("Unknown".toList), ("Unknown".toList), []) ∧
    ∀ (fmt : Str) (f : Option Str), displayRanking fmt f [] = ReportResult.noCandidates := by
  refine ⟨rfl, by decide, ?_⟩
  intro fmt f
  unfold displayRanking
  rw [if_pos rfl]

theorem endsWith_append (suf x : Str) : endsWithStr suf (x ++ suf) = true := by
  unfold endsWithStr
  rw [List.length_append, show x.length + suf.length - suf.length = x.length from by omega,
    List.drop_left]
  simp

/-- C8: with spreadsheet output selected and a filename that does not end
in `.xlsx`, the file is still written, under a name that does end in
`.xlsx` (case-insensitively, as the code checks with `lower()`). -/
theorem spreadsheet_extension_reconciled (f : Str) (cands : List Candidate)
    (hc : cands ≠ [])
    (hext : endsWithStr (".xlsx".toList) (pyLower f) = false) :
    displayRanking ("xlsx".toList) (some f) cands =
      ReportResult.wrote (reconcileXlsx f) OutKind.xlsx ∧
    endsWithStr (".xlsx".toList) (pyLower (reconcileXlsx f)) = true := by
  constructor
  · unfold displayRanking
    rw [if_neg hc]
    rfl
  · have hne : ¬ (endsWithStr (".xlsx".toList) (pyLower f) = true) := by
      rw [hext]
      decide
    unfold reconcileXlsx
    rw [if_neg hne]
    by_cases h2 : endsWithStr (".xlsx".toList)
        (pyLower (replaceStr (replaceStr f (".txt".toList) (".xlsx".toList))
          (".csv".toList) (".xlsx".toList))) = true
    · rw [if_pos h2]
      exact h2
    · rw [if_neg h2]
      have hmap : pyLower (replaceStr (replaceStr f (".txt".toList) (".xlsx".toList))
            (".csv".toList) (".xlsx".toList) ++ (".xlsx".toList)) =
          pyLower (replaceStr (replaceStr f (".txt".toList) (".xlsx".toList))
            (".csv".toList) (".xlsx".toList)) ++ (".xlsx".toList) := by
        unfold pyLower
        rw [List.map_append]
        congr 1
      rw [hmap]
      exact endsWith_append _ _

/-- Witness for C8 at a concrete CSV-named file. -/
theorem spreadsheet_extension_reconciled_witness :
    ([(⟨("1".toList), ("A".toList), ⟨25, 1⟩, 3, ⟨45, 1⟩, 6, ⟨725, 2⟩⟩ : Candidate)] ≠
      ([] : List Candidate)) ∧
    endsWithStr (".xlsx".toList) (pyLower ("ranking.csv".toList)) = false ∧
    displayRanking ("xlsx".toList) (some ("ranking.csv".toList))
        [⟨("1".toList), ("A".toList), ⟨25, 1⟩, 3, ⟨45, 1⟩, 6, ⟨725, 2⟩⟩] =
      ReportResult.wrote (reconcileXlsx ("ranking.csv".toList)) OutKind.xlsx ∧
    endsWithStr (".xlsx".toList) (pyLower (reconcileXlsx ("ranking.csv".toList))) = true :=
  ⟨by decide, by decide,
    spreadsheet_extension_reconciled _ _ (by decide) (by decide)⟩

/-!
Shapes of the stringified numbers stored by the fallback path, and a
symbolic run of the primary pattern on a canonical chunk.
-/

theorem digitChar_isDigit {d : Nat} (h : d < 10) : (digitChar d).isDigit = true := by
  interval_cases d <;> decide

theorem natStrAux_digits : ∀ (fuel n : Nat), ∀ x ∈ natStrAux fuel n, x.isDigit = true := by
  intro fuel
  induction fuel with
  | zero => intro n x hx; simp [natStrAux] at hx
  | succ fuel ih =>
    intro n x hx
    rw [natStrAux] at hx
    split at hx
    · next h => rw [List.mem_singleton] at hx; subst hx; exact digitChar_isDigit h
    · next h =>
      rcases List.mem_append.mp hx with hx | hx
      · exact ih _ x hx
      · rw [List.mem_singleton] at hx
        subst hx
        exact digitChar_isDigit (Nat.mod_lt n (by omega))

theorem natStr_allDigits (n : Nat) : AllDigits (natStr n) := by
  constructor
  · rw [natStr, natStrAux]
    split <;> simp
  · intro x hx
    exact natStrAux_digits _ _ x hx

theorem intStr_allDigits {n : Int} (h : 0 ≤ n) : AllDigits (intStr n) := by
  unfold intStr
  rw [if_neg (by omega)]
  simpa using natStr_allDigits n.natAbs

theorem decNorm_nonneg : ∀ (e : Nat) (m : Int), 0 ≤ m → 0 ≤ (decNorm m e).1 := by
  intro e
  induction e with
  | zero => intro m hm; exact hm
  | succ e ih =>
    intro m hm
    rw [decNorm]
    split
    · exact ih _ (Int.ediv_nonneg hm (by omega))
    · exact hm

theorem fracStr_allDigits (e v : Nat) : AllDigits (fracStr e v) := by
  unfold fracStr
  split
  · exact ⟨by simp, by intro x hx; rw [List.mem_singleton] at hx; subst hx; decide⟩
  · constructor
    · intro hnil
      rw [List.append_eq_nil] at hnil
      exact (natStr_allDigits v).1 hnil.2
    · intro x hx
      rcases List.mem_append.mp hx with hx | hx
      · rw [List.eq_of_mem_replicate hx]
        decide
      · exact (natStr_allDigits v).2 x hx

theorem floatStr_shape {d : Dec} (h : 0 ≤ d.mant) :
    ∃ a b, AllDigits a ∧ AllDigits b ∧ floatStr d = a ++ '.' :: b := by
  have hm := decNorm_nonneg d.fexp d.mant h
  refine ⟨natStr ((decNorm d.mant d.fexp).1.natAbs / 10 ^ (decNorm d.mant d.fexp).2),
    fracStr (decNorm d.mant d.fexp).2 ((decNorm d.mant d.fexp).1.natAbs % 10 ^ (decNorm d.mant d.fexp).2),
    natStr_allDigits _, fracStr_allDigits _ _, ?_⟩
  unfold floatStr
  rw [if_neg (by omega)]
  simp

theorem headNot_cons {p : Char → Bool} {c : Char} {t : Str} (h : p c = false) :
    headNot p (c :: t) := h

theorem headNot_nil {p : Char → Bool} : headNot p [] := trivial

theorem sepTok_run1 {t : Str} {k : Str → Option α} {r : α}
    (ht : headNot isPySpace t) (hk : k t = some r) :
    sepTok (',' :: ' ' :: t) k = some r := by
  have hshape : (',' :: ' ' :: t : Str) = ',' :: ([' '] ++ t) := rfl
  rw [hshape]
  refine sepTok_run ?_ ht hk
  intro x hx
  rw [List.mem_singleton] at hx
  subst hx
  decide

theorem matchAt_canon {r1 r2 a3 b3 r4 a5 b5 r6 a7 b7 : Str}
    (h1 : AllDigits r1) (h2ne : r2 ≠ []) (h2a : ∀ x ∈ r2, isNameChar x = true)
    (h2h : headNot isPySpace r2)
    (h3a : AllDigits a3) (h3b : AllDigits b3) (h4 : AllDigits r4)
    (h5a : AllDigits a5) (h5b : AllDigits b5) (h6 : AllDigits r6)
    (h7a : AllDigits a7) (h7b : AllDigits b7) :
    matchAt (canonChunk r1 r2 (a3 ++ '.' :: b3) r4 (a5 ++ '.' :: b5) r6 (a7 ++ '.' :: b7)) =
      some ⟨r1, r2, a3 ++ '.' :: b3, r4, a5 ++ '.' :: b5, r6, a7 ++ '.' :: b7⟩ := by
  unfold canonChunk matchAt
  apply grpPlus_run h1.1 h1.2 (headNot_cons (by decide))
  apply sepTok_run1 (headNot_append_left h2ne h2h)
  apply grpPlus_run h2ne h2a (headNot_cons (by decide))
  apply sepTok_run1 (headNot_append_left (by simp)
    (headNot_append_left h3a.1 (headNot_of_allDigits_space h3a)))
  rw [List.append_assoc, List.cons_append]
  apply decGrp_run h3a h3b (headNot_cons (by decide))
  apply sepTok_run1 (headNot_append_left h4.1 (headNot_of_allDigits_space h4))
  apply grpPlus_run h4.1 h4.2 (headNot_cons (by decide))
  apply sepTok_run1 (headNot_append_left (by simp)
    (headNot_append_left h5a.1 (headNot_of_allDigits_space h5a)))
  rw [List.append_assoc, List.cons_append]
  apply decGrp_run h5a h5b (headNot_cons (by decide))
  apply sepTok_run1 (headNot_append_left h6.1 (headNot_of_allDigits_space h6))
  apply grpPlus_run h6.1 h6.2 (headNot_cons (by decide))
  apply sepTok_run1 (headNot_append_left h7a.1 (headNot_of_allDigits_space h7a))
  conv_lhs => rw [show (b7 : Str) = b7 ++ [] from (List.append_nil b7).symm]
  apply decGrp_run h7a h7b headNot_nil
  rfl

/-!
Comparison of the fallback path with the primary pattern.
-/

theorem fallbackParts_headNot (s : Str) (i : Nat) :
    headNot isPySpace ((fallbackParts s).getD i []) := by
  by_cases h : i < (fallbackParts s).length
  · rw [List.getD_eq_getElem _ _ h]
    unfold fallbackParts at h ⊢
    rw [List.getElem_map]
    exact pyStrip_headNot _
  · rw [List.getD_eq_default _ _ (by omega)]
    exact headNot_nil

theorem mkCandidate?_registration {e : Entry} {r : Candidate}
    (h : mkCandidate? e = some r) : r.registration = pyStrip e.f1 := by
  unfold mkCandidate? at h
  cases h3 : pyFloat? e.f3 with
  | none => rw [h3] at h; simp at h
  | some p1 =>
  rw [h3] at h
  cases h4 : pyInt? e.f4 with
  | none => rw [h4] at h; simp at h
  | some c1 =>
  rw [h4] at h
  cases h5 : pyFloat? e.f5 with
  | none => rw [h5] at h; simp at h
  | some p2 =>
  rw [h5] at h
  cases h6 : pyInt? e.f6 with
  | none => rw [h6] at h; simp at h
  | some c2 =>
  rw [h6] at h
  cases h7 : pyFloat? e.f7 with
  | none => rw [h7] at h; simp at h
  | some fs =>
  rw [h7] at h
  simp at h
  subst h
  rfl

/-- Counterexample to C3: the fallback accepts the chunk
`abc, name, 1.0, 2, 3.0, 4, 5.0` and builds a record with registration
`abc`, but the primary pattern's registration group is `(\d+)`, so no
input whatsoever makes the primary pattern produce that record. -/
theorem fallback_not_primary_refinement :
    primarySearch (pyStrip ("abc, name, 1.0, 2, 3.0, 4, 5.0".toList)) = none ∧
    parseChunks true (("abc, name, 1.0, 2, 3.0, 4, 5.0".toList) :: []) =
      [⟨("abc".toList), ("name".toList), ("1.0".toList), ("2".toList), ("3.0".toList),
        ("4".toList), ("5.0".toList)⟩] ∧
    mkCandidate? ⟨("abc".toList), ("name".toList), ("1.0".toList), ("2".toList),
        ("3.0".toList), ("4".toList), ("5.0".toList)⟩ =
      some ⟨("abc".toList), ("name".toList), ⟨10, 1⟩, 2, ⟨30, 1⟩, 4, ⟨50, 1⟩⟩ ∧
    ∀ (s : Str) (g : G7) (r : Candidate), primarySearch s = some g →
      mkCandidate? (entryOfG g) = some r → r.registration ≠ ("abc".toList) := by
  refine ⟨by decide, by decide, by decide, ?_⟩
  intro s g r hs hr hreg
  obtain ⟨i, hm⟩ := primarySearch_sound hs
  obtain ⟨hf1, -, -, -, -, -, -⟩ := matchAt_forms hm
  have hregeq : r.registration = pyStrip g.g1 := mkCandidate?_registration hr
  rw [pyStrip_allDigits hf1] at hregeq
  rw [hregeq] at hreg
  have hda : ('a' : Char).isDigit = true := hf1.2 'a' (by rw [hreg]; decide)
  exact absurd hda (by decide)

/-- C3 (amended): when the primary pattern fails on a chunk but the
fallback succeeds with parts that conform to the primary pattern's group
syntax (all-digit registration, non-empty name over the name class,
non-negative numerics), the fallback's record coincides with the record
the primary pattern produces on the equivalent canonical chunk
`registration, name, p1, c1, p2, c2, final`. -/
theorem fallback_refines_primary_on_conforming (c : Str) (rest : List Str)
    (q3 q5 q7 : Dec) (n4 n6 : Int)
    (hpf : primarySearch (pyStrip c) = none)
    (hne : pyStrip c ≠ [])
    (hlen : 7 ≤ (fallbackParts (pyStrip c)).length)
    (hq3 : pyFloat? (fixNum ((fallbackParts (pyStrip c)).getD 2 [])) = some q3)
    (hn4 : pyInt? (fixNum ((fallbackParts (pyStrip c)).getD 3 [])) = some n4)
    (hq5 : pyFloat? (fixNum ((fallbackParts (pyStrip c)).getD 4 [])) = some q5)
    (hn6 : pyInt? (fixNum ((fallbackParts (pyStrip c)).getD 5 [])) = some n6)
    (hq7 : pyFloat? (fixNum ((fallbackParts (pyStrip c)).getD 6 [])) = some q7)
    (h3m : 0 ≤ q3.mant) (h4m : 0 ≤ n4) (h5m : 0 ≤ q5.mant) (h6m : 0 ≤ n6) (h7m : 0 ≤ q7.mant)
    (hreg : AllDigits ((fallbackParts (pyStrip c)).getD 0 []))
    (hname1 : (fallbackParts (pyStrip c)).getD 1 [] ≠ [])
    (hname2 : ∀ x ∈ (fallbackParts (pyStrip c)).getD 1 [], isNameChar x = true) :
    ∃ r g,
      parseChunks true (c :: rest) =
        (⟨(fallbackParts (pyStrip c)).getD 0 [], (fallbackParts (pyStrip c)).getD 1 [],
          floatStr q3, intStr n4, floatStr q5, intStr n6, floatStr q7⟩ : Entry) ::
          parseChunks true rest ∧
      primarySearch (canonChunk ((fallbackParts (pyStrip c)).getD 0 [])
          ((fallbackParts (pyStrip c)).getD 1 []) (floatStr q3) (intStr n4) (floatStr q5)
          (intStr n6) (floatStr q7)) = some g ∧
      entryOfG g =
        ⟨(fallbackParts (pyStrip c)).getD 0 [], (fallbackParts (pyStrip c)).getD 1 [],
          floatStr q3, intStr n4, floatStr q5, intStr n6, floatStr q7⟩ ∧
      mkCandidate? (entryOfG g) = some r ∧
      mkCandidate? (⟨(fallbackParts (pyStrip c)).getD 0 [],
          (fallbackParts (pyStrip c)).getD 1 [], floatStr q3, intStr n4, floatStr q5,
          intStr n6, floatStr q7⟩ : Entry) = some r := by
  obtain ⟨a3, b3, h3a, h3b, he3⟩ := floatStr_shape h3m
  obtain ⟨a5, b5, h5a, h5b, he5⟩ := floatStr_shape h5m
  obtain ⟨a7, b7, h7a, h7b, he7⟩ := floatStr_shape h7m
  have h4d : AllDigits (intStr n4) := intStr_allDigits h4m
  have h6d : AllDigits (intStr n6) := intStr_allDigits h6m
  have hnh : headNot isPySpace ((fallbackParts (pyStrip c)).getD 1 []) :=
    fallbackParts_headNot (pyStrip c) 1
  have hmatch := matchAt_canon hreg hname1 hname2 hnh h3a h3b h4d h5a h5b h6d h7a h7b
  rw [← he3, ← he5, ← he7] at hmatch
  have hsearch := primarySearch_of_matchAt hmatch
  obtain ⟨r, hr, -, -, -, -, -, -, -⟩ :=
    mkCandidate?_entry (g := ⟨(fallbackParts (pyStrip c)).getD 0 [],
      (fallbackParts (pyStrip c)).getD 1 [], floatStr q3, intStr n4, floatStr q5,
      intStr n6, floatStr q7⟩) ⟨a3, b3, h3a, h3b, he3⟩ h4d ⟨a5, b5, h5a, h5b, he5⟩
      h6d ⟨a7, b7, h7a, h7b, he7⟩
  have hstep : chunkStep (pyStrip c) =
      [⟨(fallbackParts (pyStrip c)).getD 0 [], (fallbackParts (pyStrip c)).getD 1 [],
        floatStr q3, intStr n4, floatStr q5, intStr n6, floatStr q7⟩] := by
    simp only [chunkStep, hpf, fallbackEntries]
    unfold fallbackParts at hlen hq3 hn4 hq5 hn6 hq7
    rw [if_pos hlen]
    rw [hq3, hn4, hq5, hn6, hq7]
    rfl
  refine ⟨r, ⟨(fallbackParts (pyStrip c)).getD 0 [], (fallbackParts (pyStrip c)).getD 1 [],
    floatStr q3, intStr n4, floatStr q5, intStr n6, floatStr q7⟩, ?_, hsearch, rfl, hr, hr⟩
  rw [parseChunks_cons_started hne, hstep]
  rfl

/-- Witness for the amended C3 at a chunk the primary pattern rejects
(space before the first comma) but whose parts conform. -/
theorem fallback_refines_primary_on_conforming_witness :
    (primarySearch (pyStrip ("01 , John, 1.5, 2, 3.25, 4, 5.0".toList)) = none ∧
      pyStrip ("01 , John, 1.5, 2, 3.25, 4, 5.0".toList) ≠ [] ∧
      7 ≤ (fallbackParts (pyStrip ("01 , John, 1.5, 2, 3.25, 4, 5.0".toList))).length ∧
      pyFloat? (fixNum ((fallbackParts (pyStrip ("01 , John, 1.5, 2, 3.25, 4, 5.0".toList))).getD 2 [])) = some ⟨15, 1⟩ ∧
      pyInt? (fixNum ((fallbackParts (pyStrip ("01 , John, 1.5, 2, 3.25, 4, 5.0".toList))).getD 3 [])) = some 2 ∧
      pyFloat? (fixNum ((fallbackParts (pyStrip ("01 , John, 1.5, 2, 3.25, 4, 5.0".toList))).getD 4 [])) = some ⟨325, 2⟩ ∧
      pyInt? (fixNum ((fallbackParts (pyStrip ("01 , John, 1.5, 2, 3.25, 4, 5.0".toList))).getD 5 [])) = some 4 ∧
      pyFloat? (fixNum ((fallbackParts (pyStrip ("01 , John, 1.5, 2, 3.25, 4, 5.0".toList))).getD 6 [])) = some ⟨50, 1⟩ ∧
      (0 : Int) ≤ (⟨15, 1⟩ : Dec).mant ∧ (0 : Int) ≤ 2 ∧ (0 : Int) ≤ (⟨325, 2⟩ : Dec).mant ∧
      (0 : Int) ≤ 4 ∧ (0 : Int) ≤ (⟨50, 1⟩ : Dec).mant ∧
      AllDigits ((fallbackParts (pyStrip ("01 , John, 1.5, 2, 3.25, 4, 5.0".toList))).getD 0 []) ∧
      (fallbackParts (pyStrip ("01 , John, 1.5, 2, 3.25, 4, 5.0".toList))).getD 1 [] ≠ [] ∧
      (∀ x ∈ (fallbackParts (pyStrip ("01 , John, 1.5, 2, 3.25, 4, 5.0".toList))).getD 1 [], isNameChar x = true)) ∧
    ∃ r g,
      parseChunks true (("01 , John, 1.5, 2, 3.25, 4, 5.0".toList) :: []) =
        (⟨(fallbackParts (pyStrip ("01 , John, 1.5, 2, 3.25, 4, 5.0".toList))).getD 0 [], (fallbackParts (pyStrip ("01 , John, 1.5, 2, 3.25, 4, 5.0".toList))).getD 1 [],
          floatStr ⟨15, 1⟩, intStr 2, floatStr ⟨325, 2⟩, intStr 4, floatStr ⟨50, 1⟩⟩ : Entry) ::
          parseChunks true [] ∧
      primarySearch (canonChunk ((fallbackParts (pyStrip ("01 , John, 1.5, 2, 3.25, 4, 5.0".toList))).getD 0 [])
          ((fallbackParts (pyStrip ("01 , John, 1.5, 2, 3.25, 4, 5.0".toList))).getD 1 []) (floatStr ⟨15, 1⟩) (intStr 2) (floatStr ⟨325, 2⟩)
          (intStr 4) (floatStr ⟨50, 1⟩)) = some g ∧
      entryOfG g =
        ⟨(fallbackParts (pyStrip ("01 , John, 1.5, 2, 3.25, 4, 5.0".toList))).getD 0 [], (fallbackParts (pyStrip ("01 , John, 1.5, 2, 3.25, 4, 5.0".toList))).getD 1 [],
          floatStr ⟨15, 1⟩, intStr 2, floatStr ⟨325, 2⟩, intStr 4, floatStr ⟨50, 1⟩⟩ ∧
      mkCandidate? (entryOfG g) = some r ∧
      mkCandidate? (⟨(fallbackParts (pyStrip ("01 , John, 1.5, 2, 3.25, 4, 5.0".toList))).getD 0 [],
          (fallbackParts (pyStrip ("01 , John, 1.5, 2, 3.25, 4, 5.0".toList))).getD 1 [], floatStr ⟨15, 1⟩, intStr 2, floatStr ⟨325, 2⟩,
          intStr 4, floatStr ⟨50, 1⟩⟩ : Entry) = some r :=
  ⟨by decide, by
    apply fallback_refines_primary_on_conforming _ []
    all_goals decide⟩
